import Mathlib

/-!
Verification of the shortest-path core of `discrete_lab.py`.

The module contains:
  * `bellman_ford(graph, source)` — single-source distances with a
    negative-cycle check (raises `ValueError` when the final edge scan
    still relaxes an edge);
  * `floyd_warshall(graph)` — all-pairs distances over an `N×N` matrix;
  * `gnp_random_connected_graph(n, completeness, directed)` — a random
    connected graph generator.

We embed the functions shallowly.  A graph over the node set
`{0, …, N-1}` is given by `N` together with the list of `(u, v, weight)`
triples that `graph.edges(data='weight')` yields; Python's `float('inf')`
becomes `⊤ : WithTop ℤ`, and the integer weights live in `ℤ`.
-/

/-- Python's `float('inf')`-extended integers used as distance values. -/
abbrev DistV := WithTop ℤ

/-- One `(u, v, weight)` triple as yielded by `graph.edges(data='weight')`. -/
abbrev Edge := ℕ × ℕ × ℤ

/-- All edge endpoints name nodes of the graph `{0, …, N-1}` — this is
automatic for a `networkx` graph whose node set is `{0, …, N-1}`, since
`add_edge` inserts its endpoints into the node set. -/
def edgesInRange (N : ℕ) (E : List Edge) : Prop :=
  ∀ e ∈ E, e.1 < N ∧ e.2.1 < N

/-- At most one stored weight per ordered pair — a `networkx` graph stores
at most one edge per ordered pair, so the triple list produced by
`graph.edges(data='weight')` never repeats an ordered pair. -/
def pairsNodup (E : List Edge) : Prop :=
  (E.map fun e => (e.1, e.2.1)).Nodup

instance (N : ℕ) (E : List Edge) : Decidable (edgesInRange N E) := by
  unfold edgesInRange; infer_instance

instance (E : List Edge) : Decidable (pairsNodup E) := by
  unfold pairsNodup; infer_instance

/-! ## Bellman-Ford (`bellman_ford`, lines 11–37)

`distances` is the Python dict `{node: inf for node in graph.nodes()}`
followed by `distances[source] = 0`; we model it as a total function
`ℕ → DistV` (only keys `nodes ∪ {source}` are ever read, because every
edge endpoint is a node of the graph). -/

/-- The body of the relaxation loop:
`if distances[u] + weight < distances[v]: distances[v] = distances[u] + weight`. -/
def relaxStep (d : ℕ → DistV) (e : Edge) : ℕ → DistV :=
  if d e.1 + (e.2.2 : DistV) < d e.2.1 then
    Function.update d e.2.1 (d e.1 + (e.2.2 : DistV))
  else d

/-- One full pass `for u, v, weight in graph.edges(data='weight')`. -/
def relaxPass (E : List Edge) (d : ℕ → DistV) : ℕ → DistV :=
  E.foldl relaxStep d

/-- `distances = {node: inf for node in graph.nodes()}; distances[source] = 0`.
(Assigning to a Python dict inserts the key, so an absent `source` is
simply added with value `0`.) -/
def bfInit (s : ℕ) : ℕ → DistV :=
  fun v => if v = s then 0 else ⊤

/-- The distance map after the `len(graph.nodes()) - 1` relaxation passes. -/
def bfRelaxed (N : ℕ) (E : List Edge) (s : ℕ) : ℕ → DistV :=
  (relaxPass E)^[N - 1] (bfInit s)

/-- `bellman_ford(graph, source)`: the passes, then the final edge scan that
raises `ValueError("Graph contains a negative cycle")` if any edge still
relaxes. -/
def bellman_ford (N : ℕ) (E : List Edge) (s : ℕ) :
    Except String (ℕ → DistV) :=
  let d := bfRelaxed N E s
  if E.any (fun e => decide (d e.1 + (e.2.2 : DistV) < d e.2.1)) then
    .error "Graph contains a negative cycle"
  else
    .ok d

/-! ## Floyd-Warshall (`floyd_warshall`, lines 42–65), functional view

The `N×N` list-of-lists matrix is modelled as a total function
`ℕ → ℕ → DistV` (the checked, list-of-lists embedding that also accounts
for index bounds is `floyd_warshallChk` below). -/

/-- Point update of a matrix-as-function: `distances[a][b] = x`. -/
def upd2 (f : ℕ → ℕ → DistV) (a b : ℕ) (x : DistV) : ℕ → ℕ → DistV :=
  fun i j => if i = a ∧ j = b then x else f i j

/-- `for u, v, weight in graph.edges(data='weight'): distances[u][v] = weight`
starting from the all-`inf` matrix. -/
def fwInit (E : List Edge) : ℕ → ℕ → DistV :=
  E.foldl (fun f e => upd2 f e.1 e.2.1 (e.2.2 : DistV)) (fun _ _ => ⊤)

/-- `for i in range(num_nodes): distances[i][i] = 0`. -/
def fwDiag (N : ℕ) (f : ℕ → ℕ → DistV) : ℕ → ℕ → DistV :=
  (List.range N).foldl (fun g i => upd2 g i i 0) f

/-- The innermost statement
`distances[i][j] = min(distances[i][j], distances[i][k] + distances[k][j])`. -/
def fwCell (k : ℕ) (f : ℕ → ℕ → DistV) (i j : ℕ) : ℕ → ℕ → DistV :=
  upd2 f i j (min (f i j) (f i k + f k j))

/-- The two inner loops `for i in range(num_nodes): for j in range(num_nodes)`
for a fixed intermediate `k` (in-place, row-major, like the Python lists). -/
def fwRound (N k : ℕ) (f : ℕ → ℕ → DistV) : ℕ → ℕ → DistV :=
  (List.range N).foldl
    (fun g i => (List.range N).foldl (fun h j => fwCell k h i j) g) f

/-- `floyd_warshall(graph)`: initialization, diagonal, then the triple loop
with the intermediate node `k` outermost. -/
def floyd_warshall (N : ℕ) (E : List Edge) : ℕ → ℕ → DistV :=
  (List.range N).foldl (fun f k => fwRound N k f) (fwDiag N (fwInit E))

/-! ## Floyd-Warshall, bounds-checked list embedding

The same function once more, now over actual lists of lists, with every
`distances[i][j]` read and write modelled as a bounds-checked operation
(`none` = Python `IndexError`).  This version witnesses that every list
access of `floyd_warshall` is in bounds. -/

/-- Checked read `distances[i][j]` (no negative indices occur: `i j : ℕ`). -/
def readChk (m : List (List DistV)) (i j : ℕ) : Option DistV :=
  (m.get? i).bind fun row => row.get? j

/-- Checked write `distances[i][j] = x`. -/
def writeChk (m : List (List DistV)) (i j : ℕ) (x : DistV) :
    Option (List (List DistV)) :=
  match m.get? i with
  | none => none
  | some row => if j < row.length then some (m.set i (row.set j x)) else none

/-- `floyd_warshall(graph)` over `[[inf]*n for _ in range(n)]`, with checked
accesses; `none` means some access was out of bounds. -/
def floyd_warshallChk (N : ℕ) (E : List Edge) : Option (List (List DistV)) := do
  let m0 := List.replicate N (List.replicate N (⊤ : DistV))
  let m1 ← E.foldlM (fun m e => writeChk m e.1 e.2.1 (e.2.2 : DistV)) m0
  let m2 ← (List.range N).foldlM (fun m i => writeChk m i i 0) m1
  (List.range N).foldlM (fun m k =>
    (List.range N).foldlM (fun m i =>
      (List.range N).foldlM (fun m j => do
        let a ← readChk m i j
        let b ← readChk m i k
        let c ← readChk m k j
        writeChk m i j (min a (b + c))) m) m) m2

/-! ## The random connected graph generator
(`gnp_random_connected_graph`, lines 73–121)

`combinations(range(n), 2)` grouped by first coordinate yields, for every
`i` with `i < n - 1`, the group `[(i, j) for j in range(i+1, n)]`.  The
ambient randomness is modelled by an oracle indexed by call site: for
group `i`, `choice i` selects the mandatory pair (`random.choice`,
reduced modulo the group size), `coin i` tells whether `random.random() <
0.5` reversed its orientation, and `keep u v` tells whether
`random.random() < completeness` accepted the pair `(u, v)`.  Every run
of the Python generator corresponds to one oracle.  The final
`random.randint` weight assignment (lines 100–101) only sets the
`'weight'` attribute of edges already present, so the edge set — all the
claims below are about — is fully described by the `add_edge` calls. -/

structure GenOracle where
  choice : ℕ → ℕ
  coin : ℕ → Bool
  keep : ℕ → ℕ → Bool

/-- The group of `combinations(range(n), 2)` whose first coordinate is `i`:
`[(i, j) for j in range(i+1, n)]`. -/
def groupPairs (n i : ℕ) : List (ℕ × ℕ) :=
  ((List.range n).drop (i + 1)).map fun j => (i, j)

/-- The mandatory edge of group `i`: `random.choice(node_edges)`, then
reversed when `random.random() < 0.5`. -/
def mandatoryEdge (n : ℕ) (o : GenOracle) (i : ℕ) : ℕ × ℕ :=
  let g := groupPairs n i
  let e := g.getD (o.choice i % g.length) (i, i + 1)
  if o.coin i then (e.2, e.1) else e

/-- The pairs of group `i` accepted by the per-pair completeness test
(`if random.random() < completeness: G.add_edge(*e)`) — note the code
adds `e` itself, with no further orientation randomization. -/
def keptEdges (n : ℕ) (o : GenOracle) (i : ℕ) : List (ℕ × ℕ) :=
  (groupPairs n i).filter fun e => o.keep e.1 e.2

/-- The full sequence of `G.add_edge` calls performed by
`gnp_random_connected_graph`: for each group, the mandatory edge then the
accepted pairs. -/
def genCalls (n : ℕ) (o : GenOracle) : List (ℕ × ℕ) :=
  (List.range (n - 1)).flatMap fun i =>
    mandatoryEdge n o i :: keptEdges n o i

/-- Adjacency in the undirected skeleton of the generated graph: an edge
between `a` and `b` in either orientation. -/
def SkelAdj (L : List (ℕ × ℕ)) (a b : ℕ) : Prop :=
  (a, b) ∈ L ∨ (b, a) ∈ L

/-- `a` and `b` are in the same connected component of the undirected
skeleton. -/
def SkelConn (L : List (ℕ × ℕ)) (a b : ℕ) : Prop :=
  Relation.ReflTransGen (SkelAdj L) a b

/-! ## The graph object, and the engines as state transformers

For the frame claim we record the graph as a piece of state — its node
list and its `(u, v, weight)` list — and model each engine call as the
sequence of operations it performs against that state.  The Python
engines only ever call `graph.nodes()` and `graph.edges(data='weight')`,
both read-only accessors, so each operation returns its result together
with the (unchanged) graph. -/

structure PyGraph where
  nodesL : List ℕ
  edgesL : List Edge

/-- `graph.nodes()` — a read-only accessor. -/
def nodesOp (g : PyGraph) : List ℕ × PyGraph := (g.nodesL, g)

/-- `graph.edges(data='weight')` — a read-only accessor. -/
def edgesOp (g : PyGraph) : List Edge × PyGraph := (g.edgesL, g)

/-- `bellman_ford(graph, source)` as a state transformer on the graph:
line by line, `distances = {node: inf for node in graph.nodes()}` (one
`nodes()` call), `distances[source] = 0`, `for _ in
range(len(graph.nodes()) - 1)` (one more `nodes()` call), the relaxation
passes (one `edges()` call each), the final scan (one `edges()` call),
and the return. -/
def bellman_fordSt (g : PyGraph) (s : ℕ) :
    Except String (ℕ → DistV) × PyGraph :=
  let (ns, g) := nodesOp g
  let d0 : ℕ → DistV := fun v => if v = s then 0 else ⊤
  let (ns2, g) := nodesOp g
  let passCount := ns2.length - 1
  let (dg : (ℕ → DistV) × PyGraph) :=
    (List.range passCount).foldl
      (fun (dg : (ℕ → DistV) × PyGraph) _ =>
        let (es, g) := edgesOp dg.2
        (es.foldl relaxStep dg.1, g))
      (d0, g)
  let (es, g) := edgesOp dg.2
  let d := dg.1
  if es.any (fun e => decide (d e.1 + (e.2.2 : DistV) < d e.2.1)) then
    (.error "Graph contains a negative cycle", g)
  else
    (.ok d, g)

/-- `floyd_warshall(graph)` as a state transformer on the graph: one
`nodes()` call for `num_nodes`, one `edges()` call for the
initialization, then the pure triple loop. -/
def floyd_warshallSt (g : PyGraph) : (ℕ → ℕ → DistV) × PyGraph :=
  let (ns, g) := nodesOp g
  let numNodes := ns.length
  let (es, g) := edgesOp g
  let m := fwDiag numNodes (fwInit es)
  ((List.range numNodes).foldl (fun f k => fwRound numNodes k f) m, g)

/-! ## Walks in the edge list

A walk from `u` to `v` is a list of edge triples of the graph whose
endpoints chain up.  `wwt` is its total weight, `wsupport` the sequence
of visited nodes. -/

def chainOk (E : List Edge) : ℕ → List Edge → ℕ → Prop
  | u, [], v => u = v
  | u, e :: p, v => e.1 = u ∧ e ∈ E ∧ chainOk E e.2.1 p v

def wwt (p : List Edge) : ℤ := (p.map fun e => e.2.2).sum

def wsupport (u : ℕ) (p : List Edge) : List ℕ := u :: p.map fun e => e.2.1

instance instDecChainOk (E : List Edge) :
    (p : List Edge) → (u v : ℕ) → Decidable (chainOk E u p v)
  | [], u, v => inferInstanceAs (Decidable (u = v))
  | e :: p, u, v =>
      have : Decidable (chainOk E e.2.1 p v) := instDecChainOk E p e.2.1 v
      inferInstanceAs (Decidable (e.1 = u ∧ e ∈ E ∧ chainOk E e.2.1 p v))

/-- `v` has a path from `s` in the graph's edge list. -/
def Reachable (E : List Edge) (s v : ℕ) : Prop := ∃ p, chainOk E s p v

/-- "The graph contains no negative cycle": every closed walk has
nonnegative total weight.  (A negative cycle is a closed walk of negative
weight; conversely `walk_dup_split` below extracts a genuine cycle from
any closed walk, so the two readings agree.) -/
def NoNegCycle (E : List Edge) : Prop :=
  ∀ u p, chainOk E u p u → 0 ≤ wwt p

/-- The distance map relaxes no edge: exactly the condition under which
the final scan of `bellman_ford` does not raise. -/
def BFStable (E : List Edge) (d : ℕ → DistV) : Prop :=
  ∀ e ∈ E, d e.2.1 ≤ d e.1 + (e.2.2 : DistV)

/-- Every finite entry of the distance map is witnessed by a walk from
the source of no greater weight. -/
def BFSound (E : List Edge) (s : ℕ) (d : ℕ → DistV) : Prop :=
  ∀ v, d v = ⊤ ∨ ∃ p, chainOk E s p v ∧ ((wwt p : ℤ) : DistV) ≤ d v

/-! Closed form of one in-place round of `floyd_warshall` (proved in
`fwRound_eq_spec` below).  During round `k` the cells are written in
row-major order, so a read of `distances[i][k]` sees its updated value
exactly when column `k` lies left of the current column (`k < j`), and a
read of `distances[k][j]` sees row `k`'s updated value exactly when row
`k` lies above the current row (`k < i`); the updated `distances[k][k]`
is `min(D[k][k], D[k][k] + D[k][k])`. -/

/-- The value of `distances[k][k]` after its own update in round `k`. -/
def dkkS (D : ℕ → ℕ → DistV) (k : ℕ) : DistV :=
  min (D k k) (D k k + D k k)

/-- The value of `distances[i][k]` after its update in round `k`. -/
def colKS (D : ℕ → ℕ → DistV) (k i : ℕ) : DistV :=
  min (D i k) (D i k + (if k < i then dkkS D k else D k k))

/-- The value of `distances[k][j]` after its update in round `k`. -/
def rowKS (D : ℕ → ℕ → DistV) (k j : ℕ) : DistV :=
  min (D k j) ((if k < j then dkkS D k else D k k) + D k j)

/-- The value of `distances[i][j]` at the end of the in-place round `k`. -/
def fwRoundSpec (D : ℕ → ℕ → DistV) (k i j : ℕ) : DistV :=
  min (D i j)
    ((if k < j then colKS D k i else D i k) +
     (if k < i then rowKS D k j else D k j))

/-- The value of `distances[i][j]` after processing columns `0, …, c-1`
of row `i` in round `k`, starting the row from state `S`. -/
def rowVal (S : ℕ → ℕ → DistV) (k i j : ℕ) : DistV :=
  min (S i j)
    ((if k < j then min (S i k) (S i k + S k k) else S i k) + S k j)

/-- The matrix after the first `t` rounds of the triple loop. -/
def fwAfter (N : ℕ) (E : List Edge) (t : ℕ) : ℕ → ℕ → DistV :=
  (List.range t).foldl (fun f k => fwRound N k f) (fwDiag N (fwInit E))

/-- Every finite matrix entry is witnessed by a walk of no greater
weight. -/
def FWSound (E : List Edge) (f : ℕ → ℕ → DistV) : Prop :=
  ∀ i j, f i j = ⊤ ∨ ∃ p, chainOk E i p j ∧ ((wwt p : ℤ) : DistV) ≤ f i j

/-- The triple list contains both orientations of every edge (the
symmetric-closure reading of an undirected edge set). -/
def symClosed (E : List Edge) : Prop :=
  ∀ e ∈ E, ((e.2.1, e.1, e.2.2) : Edge) ∈ E

instance (E : List Edge) : Decidable (symClosed E) := by
  unfold symClosed; infer_instance

/-- The shape invariant of the Floyd-Warshall working matrix: `N` rows of
`N` cells each. -/
def MatDims (N : ℕ) (m : List (List DistV)) : Prop :=
  m.length = N ∧ ∀ r ∈ m, r.length = N

/-- A concrete draw of the generator's randomness in which every
orientation coin says "reverse" and only the pair `(0, 2)` passes the
completeness test. -/
def oracleAllRev : GenOracle where
  choice := fun _ => 0
  coin := fun _ => true
  keep := fun u v => decide (u = 0 ∧ v = 2)

/-- A concrete draw of the generator's randomness: first pair chosen, no
reversal, no extra pairs. -/
def oracleA : GenOracle where
  choice := fun _ => 0
  coin := fun _ => false
  keep := fun _ _ => false

theorem wwt_nil : wwt [] = 0 := rfl

theorem wwt_cons (e : Edge) (p : List Edge) : wwt (e :: p) = e.2.2 + wwt p := by
  simp [wwt]

theorem wwt_append (p q : List Edge) : wwt (p ++ q) = wwt p + wwt q := by
  simp [wwt]

theorem chainOk_append {E : List Edge} {p q : List Edge} {u v : ℕ} :
    chainOk E u (p ++ q) v ↔ ∃ m, chainOk E u p m ∧ chainOk E m q v := by
  induction p generalizing u with
  | nil =>
      constructor
      · intro h; exact ⟨u, rfl, h⟩
      · rintro ⟨m, hm, h⟩
        have hum : u = m := hm
        subst hum; exact h
  | cons e t ih =>
      constructor
      · rintro ⟨h1, h2, h3⟩
        rcases ih.1 h3 with ⟨m, hm1, hm2⟩
        exact ⟨m, ⟨h1, h2, hm1⟩, hm2⟩
      · rintro ⟨m, ⟨h1, h2, h3⟩, h4⟩
        exact ⟨h1, h2, ih.2 ⟨m, h3, h4⟩⟩

theorem chainOk_sub {E : List Edge} {p : List Edge} {u v : ℕ}
    (h : chainOk E u p v) : ∀ e ∈ p, e ∈ E := by
  induction p generalizing u with
  | nil => intro e he; cases he
  | cons f t ih =>
      rcases h with ⟨-, hf, ht⟩
      intro e he
      rcases List.mem_cons.1 he with rfl | he
      · exact hf
      · exact ih ht e he

theorem mem_support_split {E : List Edge} {p : List Edge} {u v x : ℕ}
    (h : chainOk E u p v) (hx : x ∈ wsupport u p) :
    ∃ b c, p = b ++ c ∧ chainOk E u b x ∧ chainOk E x c v := by
  induction p generalizing u with
  | nil =>
      have hxu : x = u := by simpa [wsupport] using hx
      subst hxu
      exact ⟨[], [], rfl, rfl, h⟩
  | cons e t ih =>
      rcases h with ⟨h1, h2, h3⟩
      have hx' : x = u ∨ x ∈ wsupport e.2.1 t := by
        simpa [wsupport] using hx
      rcases hx' with rfl | hx'
      · exact ⟨[], e :: t, rfl, rfl, ⟨h1, h2, h3⟩⟩
      · rcases ih h3 hx' with ⟨b, c, rfl, hb, hc⟩
        exact ⟨e :: b, c, rfl, ⟨h1, h2, hb⟩, hc⟩

theorem walk_dup_split {E : List Edge} {p : List Edge} {u v : ℕ}
    (h : chainOk E u p v) (hnd : ¬ (wsupport u p).Nodup) :
    ∃ a b c x, p = a ++ b ++ c ∧ b ≠ [] ∧
      chainOk E u a x ∧ chainOk E x b x ∧ chainOk E x c v := by
  induction p generalizing u with
  | nil =>
      exact absurd (List.nodup_singleton u) hnd
  | cons e t ih =>
      rcases h with ⟨h1, h2, h3⟩
      have hsup : wsupport u (e :: t) = u :: wsupport e.2.1 t := by
        simp [wsupport]
      rw [hsup, List.nodup_cons] at hnd
      push_neg at hnd
      by_cases hu : u ∈ wsupport e.2.1 t
      · rcases mem_support_split h3 hu with ⟨b, c, rfl, hb, hc⟩
        exact ⟨[], e :: b, c, u, rfl, by simp, rfl, ⟨h1, h2, hb⟩, hc⟩
      · rcases ih h3 (hnd hu) with ⟨a, b, c, x, rfl, hbne, ha, hb, hc⟩
        exact ⟨e :: a, b, c, x, rfl, hbne, ⟨h1, h2, ha⟩, hb, hc⟩

theorem support_lt {N : ℕ} {E : List Edge} {p : List Edge} {u v : ℕ}
    (h : chainOk E u p v) (hE : edgesInRange N E) (hu : u < N) :
    ∀ x ∈ wsupport u p, x < N := by
  induction p generalizing u with
  | nil =>
      intro x hx
      have hxu : x = u := by simpa [wsupport] using hx
      subst hxu; exact hu
  | cons e t ih =>
      rcases h with ⟨-, h2, h3⟩
      intro x hx
      have hx' : x = u ∨ x ∈ wsupport e.2.1 t := by
        simpa [wsupport] using hx
      rcases hx' with rfl | hx'
      · exact hu
      · exact ih h3 (hE e h2).2 x hx'

theorem length_le_of_nodup_lt {N : ℕ} {l : List ℕ}
    (hlt : ∀ x ∈ l, x < N) (hnd : l.Nodup) : l.length ≤ N := by
  have hsub : l.toFinset ⊆ Finset.range N := by
    intro x hx
    exact Finset.mem_range.2 (hlt x (List.mem_toFinset.1 hx))
  have := Finset.card_le_card hsub
  rwa [List.toFinset_card_of_nodup hnd, Finset.card_range] at this

theorem support_length (u : ℕ) (p : List Edge) :
    (wsupport u p).length = p.length + 1 := by
  simp [wsupport]

/-- Any walk between in-range endpoints has a sub-walk of fewer than `N`
edges with the same endpoints (repeatedly cut out closed detours). -/
theorem walk_shorten {N : ℕ} {E : List Edge} (hE : edgesInRange N E) :
    ∀ n (p : List Edge) (u v : ℕ), p.length ≤ n → chainOk E u p v →
      u < N → ∃ q, chainOk E u q v ∧ q.length < N := by
  intro n
  induction n with
  | zero =>
      intro p u v hlen h hu
      have : p = [] := List.length_eq_zero.1 (Nat.le_zero.1 hlen)
      subst this
      exact ⟨[], h, by omega⟩
  | succ n ih =>
      intro p u v hlen h hu
      by_cases hshort : p.length < N
      · exact ⟨p, h, hshort⟩
      · have hnd : ¬ (wsupport u p).Nodup := by
          intro hnd
          have := length_le_of_nodup_lt (support_lt h hE hu) hnd
          rw [support_length] at this
          omega
        rcases walk_dup_split h hnd with ⟨a, b, c, x, rfl, hbne, ha, hb, hc⟩
        have hq : chainOk E u (a ++ c) v := chainOk_append.2 ⟨x, ha, hc⟩
        have hlen2 : (a ++ c).length ≤ n := by
          have hbpos : 0 < b.length := List.length_pos.2 hbne
          simp only [List.length_append] at hlen ⊢
          omega
        exact ih (a ++ c) u v hlen2 hq hu

/-- Under `NoNegCycle`, any walk can be replaced by one of no greater
weight whose support has no repeats (hence, in range, a path of fewer
than `N` edges). -/
theorem walk_deloop {E : List Edge} (hNC : NoNegCycle E) :
    ∀ n (p : List Edge) (u v : ℕ), p.length ≤ n → chainOk E u p v →
      ∃ q, chainOk E u q v ∧ wwt q ≤ wwt p ∧ (wsupport u q).Nodup := by
  intro n
  induction n with
  | zero =>
      intro p u v hlen h
      have : p = [] := List.length_eq_zero.1 (Nat.le_zero.1 hlen)
      subst this
      exact ⟨[], h, le_refl _, by cases h; exact List.nodup_singleton u⟩
  | succ n ih =>
      intro p u v hlen h
      by_cases hnd : (wsupport u p).Nodup
      · exact ⟨p, h, le_refl _, hnd⟩
      · rcases walk_dup_split h hnd with ⟨a, b, c, x, rfl, hbne, ha, hb, hc⟩
        have hq : chainOk E u (a ++ c) v := chainOk_append.2 ⟨x, ha, hc⟩
        have hlen2 : (a ++ c).length ≤ n := by
          have hbpos : 0 < b.length := List.length_pos.2 hbne
          simp only [List.length_append] at hlen ⊢
          omega
        rcases ih (a ++ c) u v hlen2 hq with ⟨q, hq1, hq2, hq3⟩
        refine ⟨q, hq1, le_trans hq2 ?_, hq3⟩
        have hb0 : 0 ≤ wwt b := hNC x b hb
        simp only [wwt_append]
        omega

/-! ## Bellman-Ford: relaxation lemmas -/

theorem relaxStep_le (d : ℕ → DistV) (e : Edge) (x : ℕ) :
    relaxStep d e x ≤ d x := by
  unfold relaxStep
  split
  · rename_i hlt
    by_cases hx : x = e.2.1
    · subst hx
      rw [Function.update_same]
      exact le_of_lt hlt
    · rw [Function.update_noteq hx]
  · exact le_refl _

theorem relaxFold_le (l : List Edge) (d : ℕ → DistV) (x : ℕ) :
    l.foldl relaxStep d x ≤ d x := by
  induction l generalizing d with
  | nil => exact le_refl _
  | cons e t ih =>
      exact le_trans (ih (relaxStep d e)) (relaxStep_le d e x)

theorem relaxStep_edge (d : ℕ → DistV) (e : Edge) :
    relaxStep d e e.2.1 ≤ d e.1 + (e.2.2 : DistV) := by
  unfold relaxStep
  split
  · rw [Function.update_same]
  · rename_i hlt
    exact le_of_not_lt hlt

theorem relaxFold_edge (l : List Edge) (d : ℕ → DistV) (e : Edge)
    (he : e ∈ l) : l.foldl relaxStep d e.2.1 ≤ d e.1 + (e.2.2 : DistV) := by
  induction l generalizing d with
  | nil => cases he
  | cons f t ih =>
      rcases List.mem_cons.1 he with rfl | he
      · calc t.foldl relaxStep (relaxStep d e) e.2.1
            ≤ relaxStep d e e.2.1 := relaxFold_le t _ _
          _ ≤ d e.1 + (e.2.2 : DistV) := relaxStep_edge d e
      · calc t.foldl relaxStep (relaxStep d f) e.2.1
            ≤ relaxStep d f e.1 + (e.2.2 : DistV) := ih _ he
          _ ≤ d e.1 + (e.2.2 : DistV) :=
              add_le_add_right (relaxStep_le d f e.1) _

theorem bfRelaxed_le_init (N : ℕ) (E : List Edge) (s : ℕ) (x : ℕ) :
    bfRelaxed N E s x ≤ bfInit s x := by
  unfold bfRelaxed
  generalize N - 1 = k
  induction k with
  | zero => exact le_refl _
  | succ k ih =>
      rw [Function.iterate_succ_apply']
      exact le_trans (relaxFold_le E _ x) ih

theorem bfSound_init (E : List Edge) (s : ℕ) : BFSound E s (bfInit s) := by
  intro v
  by_cases hv : v = s
  · subst hv
    refine Or.inr ⟨[], rfl, ?_⟩
    simp [bfInit, wwt_nil]
  · left
    simp [bfInit, hv]

theorem bfSound_step (E : List Edge) (s : ℕ) (d : ℕ → DistV) (e : Edge)
    (he : e ∈ E) (hd : BFSound E s d) : BFSound E s (relaxStep d e) := by
  intro v
  unfold relaxStep
  split
  · rename_i hlt
    by_cases hv : v = e.2.1
    · subst hv
      rw [Function.update_same]
      rcases hd e.1 with htop | ⟨p, hp, hw⟩
      · rw [htop] at hlt
        simp at hlt
      · refine Or.inr ⟨p ++ [e], chainOk_append.2 ⟨e.1, hp, rfl, he, rfl⟩, ?_⟩
        have hsum : ((wwt (p ++ [e]) : ℤ) : DistV)
            = ((wwt p : ℤ) : DistV) + (e.2.2 : DistV) := by
          rw [wwt_append, wwt_cons, wwt_nil]
          push_cast
          simp
        rw [hsum]
        exact add_le_add_right hw _
    · rw [Function.update_noteq hv]
      exact hd v
  · exact hd v

theorem bfSound_fold (E : List Edge) (s : ℕ) (l : List Edge)
    (hl : ∀ e ∈ l, e ∈ E) (d : ℕ → DistV) (hd : BFSound E s d) :
    BFSound E s (l.foldl relaxStep d) := by
  induction l generalizing d with
  | nil => exact hd
  | cons e t ih =>
      exact ih (fun f hf => hl f (List.mem_cons_of_mem e hf))
        (relaxStep d e) (bfSound_step E s d e (hl e (List.mem_cons_self e t)) hd)

theorem bfSound_relaxed (N : ℕ) (E : List Edge) (s : ℕ) :
    BFSound E s (bfRelaxed N E s) := by
  unfold bfRelaxed
  generalize N - 1 = k
  induction k with
  | zero => exact bfSound_init E s
  | succ k ih =>
      rw [Function.iterate_succ_apply']
      exact bfSound_fold E s E (fun e he => he) _ ih

/-- Upper bound: after `k` passes the tentative distance of `v` is at most
the weight of any walk from `s` to `v` of at most `k` edges. -/
theorem bf_upper (E : List Edge) (s : ℕ) :
    ∀ (k : ℕ) (p : List Edge) (v : ℕ), chainOk E s p v → p.length ≤ k →
      (relaxPass E)^[k] (bfInit s) v ≤ ((wwt p : ℤ) : DistV) := by
  intro k
  induction k with
  | zero =>
      intro p v hp hlen
      have hp0 : p = [] := List.length_eq_zero.1 (Nat.le_zero.1 hlen)
      subst hp0
      have hsv : s = v := hp
      subst hsv
      simp [bfInit, wwt_nil]
  | succ k ih =>
      intro p v hp hlen
      rw [Function.iterate_succ_apply']
      by_cases hshort : p.length ≤ k
      · exact le_trans (relaxFold_le E _ v) (ih p v hp hshort)
      · rcases List.eq_nil_or_concat p with rfl | ⟨q, e, rfl⟩
        · simp at hshort
        · rw [List.concat_eq_append] at hp hlen ⊢
          rcases chainOk_append.1 hp with ⟨m, hq, he⟩
          rcases he with ⟨h1, h2, h3⟩
          have hvm : e.2.1 = v := h3
          have hm : e.1 = m := h1
          have hlq : q.length ≤ k := by
            simp [List.length_append] at hlen
            omega
          calc relaxPass E ((relaxPass E)^[k] (bfInit s)) v
              ≤ (relaxPass E)^[k] (bfInit s) e.1 + (e.2.2 : DistV) := by
                rw [← hvm]; exact relaxFold_edge E _ e h2
            _ ≤ ((wwt q : ℤ) : DistV) + (e.2.2 : DistV) := by
                rw [hm]
                exact add_le_add_right (ih q m hq hlq) _
            _ = ((wwt (q ++ [e]) : ℤ) : DistV) := by
                rw [wwt_append, wwt_cons, wwt_nil]
                push_cast
                simp

/-- A stable distance map respects every walk. -/
theorem bfStable_walk {E : List Edge} {d : ℕ → DistV} (hst : BFStable E d) :
    ∀ (p : List Edge) (u v : ℕ), chainOk E u p v →
      d v ≤ d u + ((wwt p : ℤ) : DistV) := by
  intro p
  induction p with
  | nil =>
      intro u v hp
      have huv : u = v := hp
      subst huv
      simp [wwt_nil]
  | cons e t ih =>
      intro u v hp
      rcases hp with ⟨h1, h2, h3⟩
      calc d v ≤ d e.2.1 + ((wwt t : ℤ) : DistV) := ih e.2.1 v h3
        _ ≤ (d e.1 + (e.2.2 : DistV)) + ((wwt t : ℤ) : DistV) :=
            add_le_add_right (hst e h2) _
        _ = d e.1 + ((e.2.2 : DistV) + ((wwt t : ℤ) : DistV)) := by
            rw [add_assoc]
        _ = d u + ((wwt (e :: t) : ℤ) : DistV) := by
            rw [h1, wwt_cons]
            push_cast
            simp

theorem end_mem_support {E : List Edge} {p : List Edge} {u v : ℕ}
    (h : chainOk E u p v) : v ∈ wsupport u p := by
  induction p generalizing u with
  | nil =>
      have huv : u = v := h
      subst huv
      exact List.mem_singleton.2 rfl
  | cons e t ih =>
      rcases h with ⟨-, -, h3⟩
      have : v ∈ wsupport e.2.1 t := ih h3
      simp only [wsupport, List.map_cons, List.mem_cons] at this ⊢
      tauto

theorem anyRelax_eq_false {E : List Edge} {d : ℕ → DistV} :
    (E.any fun e => decide (d e.1 + (e.2.2 : DistV) < d e.2.1)) = false ↔
      BFStable E d := by
  rw [← Bool.not_eq_true, List.any_eq_true]
  constructor
  · intro h e he
    by_contra hcon
    exact h ⟨e, he, decide_eq_true (lt_of_not_le hcon)⟩
  · rintro h ⟨e, he, hdec⟩
    exact absurd (h e he) (not_le_of_lt (of_decide_eq_true hdec))

/-- From any walk from `s` strictly cheaper than the post-pass tentative
distance of its endpoint, a negative closed walk reachable from `s` can
be extracted. -/
theorem negcycle_of_below {N : ℕ} {E : List Edge} {s : ℕ}
    (hE : edgesInRange N E) :
    ∀ (n : ℕ) (p : List Edge) (v : ℕ), p.length ≤ n → chainOk E s p v →
      ((wwt p : ℤ) : DistV) < bfRelaxed N E s v →
      ∃ x a q, chainOk E s a x ∧ chainOk E x q x ∧ wwt q < 0 := by
  intro n
  induction n with
  | zero =>
      intro p v hlen hp hlt
      have hp0 : p = [] := List.length_eq_zero.1 (Nat.le_zero.1 hlen)
      subst hp0
      exact absurd hlt (not_lt_of_le (bf_upper E s (N - 1) [] v hp (by simp)))
  | succ n ih =>
      intro p v hlen hp hlt
      by_cases hshort : p.length ≤ N - 1
      · exact absurd hlt (not_lt_of_le (bf_upper E s (N - 1) p v hp hshort))
      · have hpne : p ≠ [] := by
          intro h; subst h; simp at hshort
        have hsN : s < N := by
          rcases p with - | ⟨e, t⟩
          · exact absurd rfl hpne
          · rcases hp with ⟨h1, h2, -⟩
            rw [← h1]
            exact (hE e h2).1
        have hnd : ¬ (wsupport s p).Nodup := by
          intro hnd
          have := length_le_of_nodup_lt (support_lt hp hE hsN) hnd
          rw [support_length] at this
          omega
        rcases walk_dup_split hp hnd with ⟨a, b, c, x, rfl, hbne, ha, hb, hc⟩
        by_cases hbw : wwt b < 0
        · exact ⟨x, a, b, ha, hb, hbw⟩
        · have hq : chainOk E s (a ++ c) v := chainOk_append.2 ⟨x, ha, hc⟩
          have hlen2 : (a ++ c).length ≤ n := by
            have hbpos : 0 < b.length := List.length_pos.2 hbne
            simp only [List.length_append] at hlen ⊢
            omega
          have hwle : wwt (a ++ c) ≤ wwt (a ++ b ++ c) := by
            simp only [wwt_append]
            omega
          refine ih (a ++ c) v hlen2 hq (lt_of_le_of_lt ?_ hlt)
          exact_mod_cast WithTop.coe_le_coe.2 hwle

/-- If the final scan finds no edge to relax, then no closed walk through
a node reachable from `s` has negative weight. -/
theorem stable_no_negcycle {N : ℕ} {E : List Edge} {s : ℕ}
    (hE : edgesInRange N E) (hst : BFStable E (bfRelaxed N E s)) :
    ∀ x p q, chainOk E s p x → chainOk E x q x → 0 ≤ wwt q := by
  intro x p q hp hq
  by_contra hneg
  push_neg at hneg
  have hqne : q ≠ [] := by
    intro h; subst h; simp [wwt_nil] at hneg
  have hxN : x < N := by
    rcases q with - | ⟨e, t⟩
    · exact absurd rfl hqne
    · rcases hq with ⟨h1, h2, -⟩
      rw [← h1]
      exact (hE e h2).1
  have hsN : s < N := by
    rcases p with - | ⟨e, t⟩
    · have hsx : s = x := hp
      rw [hsx]; exact hxN
    · rcases hp with ⟨h1, h2, -⟩
      rw [← h1]
      exact (hE e h2).1
  rcases walk_shorten hE p.length p s x (le_refl _) hp hsN with ⟨p', hp', hlen'⟩
  have hfin : bfRelaxed N E s x ≤ ((wwt p' : ℤ) : DistV) := by
    refine bf_upper E s (N - 1) p' x hp' ?_
    omega
  have hne : bfRelaxed N E s x ≠ ⊤ :=
    ne_top_of_le_ne_top WithTop.coe_ne_top hfin
  have hwalk := bfStable_walk hst q x x hq
  have hwalk' : bfRelaxed N E s x + 0
      ≤ bfRelaxed N E s x + ((wwt q : ℤ) : DistV) := by
    rw [add_zero]; exact hwalk
  have h0 : (0 : DistV) ≤ ((wwt q : ℤ) : DistV) :=
    (WithTop.add_le_add_iff_left hne).1 hwalk'
  have : (0 : ℤ) ≤ wwt q := by exact_mod_cast h0
  omega

/-! ## Bellman-Ford: result shape -/

theorem bellman_ford_ok_val {N : ℕ} {E : List Edge} {s : ℕ} {d : ℕ → DistV}
    (h : bellman_ford N E s = .ok d) :
    d = bfRelaxed N E s ∧ BFStable E (bfRelaxed N E s) := by
  unfold bellman_ford at h
  by_cases hc : (E.any fun e => decide
      (bfRelaxed N E s e.1 + (e.2.2 : DistV) < bfRelaxed N E s e.2.1)) = true
  · rw [if_pos hc] at h
    cases h
  · rw [if_neg hc] at h
    refine ⟨(Except.ok.inj h).symm, ?_⟩
    exact anyRelax_eq_false.1 (Bool.not_eq_true _ ▸ hc)

theorem bellman_ford_error_iff {N : ℕ} {E : List Edge} {s : ℕ} :
    bellman_ford N E s = .error "Graph contains a negative cycle" ↔
      ¬ BFStable E (bfRelaxed N E s) := by
  unfold bellman_ford
  by_cases hc : (E.any fun e => decide
      (bfRelaxed N E s e.1 + (e.2.2 : DistV) < bfRelaxed N E s e.2.1)) = true
  · rw [if_pos hc]
    simp only [true_iff]
    intro hst
    rw [anyRelax_eq_false.2 hst] at hc
    cases hc
  · rw [if_neg hc]
    constructor
    · intro h; cases h
    · intro hst
      exact absurd (anyRelax_eq_false.1 (Bool.not_eq_true _ ▸ hc)) hst

theorem bellman_ford_stable_ok {N : ℕ} {E : List Edge} {s : ℕ}
    (hst : BFStable E (bfRelaxed N E s)) :
    bellman_ford N E s = .ok (bfRelaxed N E s) := by
  unfold bellman_ford
  rw [if_neg]
  rw [anyRelax_eq_false.2 hst]
  simp

/-- The final scan raises exactly when a negative closed walk is
reachable from the source. -/
theorem bf_negcycle_iff {N : ℕ} {E : List Edge} {s : ℕ}
    (hE : edgesInRange N E) :
    bellman_ford N E s = .error "Graph contains a negative cycle" ↔
      ∃ x p q, chainOk E s p x ∧ chainOk E x q x ∧ wwt q < 0 := by
  rw [bellman_ford_error_iff]
  constructor
  · intro hst
    unfold BFStable at hst
    push_neg at hst
    rcases hst with ⟨e, he, hlt⟩
    have hne : bfRelaxed N E s e.1 ≠ ⊤ := by
      intro htop
      rw [htop, top_add] at hlt
      exact not_top_lt hlt
    rcases bfSound_relaxed N E s e.1 with htop | ⟨p, hp, hw⟩
    · exact absurd htop hne
    · refine negcycle_of_below hE (p ++ [e]).length (p ++ [e]) e.2.1
        (le_refl _) (chainOk_append.2 ⟨e.1, hp, rfl, he, rfl⟩) ?_
      have hsum : ((wwt (p ++ [e]) : ℤ) : DistV)
          = ((wwt p : ℤ) : DistV) + (e.2.2 : DistV) := by
        rw [wwt_append, wwt_cons, wwt_nil]
        push_cast
        simp
      rw [hsum]
      exact lt_of_le_of_lt (add_le_add_right hw _) hlt
  · rintro ⟨x, p, q, hp, hq, hneg⟩ hst
    exact absurd (stable_no_negcycle hE hst x p q hp hq) (not_le_of_lt hneg)

/-- If `bellman_ford` returns, the source's own distance is `0`. -/
theorem bf_ok_source_eq_zero {N : ℕ} {E : List Edge} {s : ℕ} {d : ℕ → DistV}
    (h : bellman_ford N E s = .ok d) : d s = 0 := by
  rcases bellman_ford_ok_val h with ⟨rfl, hst⟩
  have hle : bfRelaxed N E s s ≤ 0 := by
    have := bfRelaxed_le_init N E s s
    simpa [bfInit] using this
  by_contra hne0
  have hlt : bfRelaxed N E s s < 0 := lt_of_le_of_ne hle hne0
  have hnetop : bfRelaxed N E s s ≠ ⊤ := hlt.ne_top
  rcases bfSound_relaxed N E s s with htop | ⟨p, hp, hw⟩
  · exact absurd htop hnetop
  · have hwneg : ((wwt p : ℤ) : DistV) < 0 := lt_of_le_of_lt hw hlt
    have hwneg' : wwt p < 0 := by exact_mod_cast hwneg
    have hwalk := bfStable_walk hst p s s hp
    have hwalk' : bfRelaxed N E s s + 0
        ≤ bfRelaxed N E s s + ((wwt p : ℤ) : DistV) := by
      rw [add_zero]; exact hwalk
    have h0 : (0 : DistV) ≤ ((wwt p : ℤ) : DistV) :=
      (WithTop.add_le_add_iff_left hnetop).1 hwalk'
    have : (0 : ℤ) ≤ wwt p := by exact_mod_cast h0
    omega

/-! ## Bellman-Ford: absent source (the dict just gains a key) -/

theorem relaxFold_fix {l : List Edge} {d : ℕ → DistV}
    (h : ∀ e ∈ l, d e.1 = ⊤) : l.foldl relaxStep d = d := by
  induction l with
  | nil => rfl
  | cons e t ih =>
      have hstep : relaxStep d e = d := by
        unfold relaxStep
        rw [if_neg]
        rw [h e (List.mem_cons_self e t), top_add]
        exact not_top_lt
      rw [List.foldl_cons, hstep]
      exact ih fun f hf => h f (List.mem_cons_of_mem e hf)

theorem bfRelaxed_absent {N : ℕ} {E : List Edge} {s : ℕ}
    (hE : edgesInRange N E) (hs : N ≤ s) : bfRelaxed N E s = bfInit s := by
  unfold bfRelaxed
  generalize N - 1 = k
  induction k with
  | zero => rfl
  | succ k ih =>
      rw [Function.iterate_succ_apply', ih]
      refine relaxFold_fix fun e he => ?_
      have : e.1 ≠ s := by
        have := (hE e he).1
        omega
      simp [bfInit, this]

theorem bf_absent_source {N : ℕ} {E : List Edge} {s : ℕ}
    (hE : edgesInRange N E) (hs : N ≤ s) :
    bellman_ford N E s = .ok (bfInit s) := by
  have hfix := bfRelaxed_absent hE hs
  have hst : BFStable E (bfRelaxed N E s) := by
    intro e he
    rw [hfix]
    have : e.1 ≠ s := by
      have := (hE e he).1
      omega
    simp [bfInit, this, top_add]
  rw [bellman_ford_stable_ok hst, hfix]

/-! ## Floyd-Warshall: exact shape of one in-place round -/

theorem fwRoundSpec_kk (D : ℕ → ℕ → DistV) (k : ℕ) :
    fwRoundSpec D k k k = dkkS D k := by
  simp [fwRoundSpec, dkkS, lt_irrefl]

theorem fwRoundSpec_kj (D : ℕ → ℕ → DistV) (k j : ℕ) :
    fwRoundSpec D k k j = rowKS D k j := by
  simp [fwRoundSpec, rowKS, colKS, dkkS, lt_irrefl]

theorem fwRoundSpec_ik (D : ℕ → ℕ → DistV) (k i : ℕ) :
    fwRoundSpec D k i k = colKS D k i := by
  simp [fwRoundSpec, rowKS, colKS, dkkS, lt_irrefl]

theorem rowFold_spec (N k i : ℕ) (S : ℕ → ℕ → DistV) :
    ∀ c, (List.range c).foldl (fun h j => fwCell k h i j) S
      = fun i' j' => if i' = i ∧ j' < c then rowVal S k i j' else S i' j' := by
  intro c
  induction c with
  | zero =>
      funext i' j'
      simp
  | succ c ih =>
      rw [List.range_succ, List.foldl_append, ih]
      set R : ℕ → ℕ → DistV :=
        fun i' j' => if i' = i ∧ j' < c then rowVal S k i j' else S i' j'
        with hR
      have hRic : R i c = S i c := by
        simp [hR]
      have hRkc : R k c = S k c := by
        by_cases hki : k = i
        · subst hki
          simp [hR]
        · simp [hR, hki]
      have hRik : R i k = if k < c then min (S i k) (S i k + S k k) else S i k := by
        by_cases hkc : k < c
        · simp [hR, hkc, rowVal, lt_irrefl]
        · simp [hR, hkc]
      funext i' j'
      simp only [List.foldl_cons, List.foldl_nil]
      show upd2 R i c (min (R i c) (R i k + R k c)) i' j' = _
      unfold upd2
      rw [hRic, hRkc, hRik]
      by_cases hi' : i' = i
      · subst hi'
        by_cases hj'c : j' = c
        · subst hj'c
          simp [rowVal]
        · have hcond : ¬ (i' = i' ∧ j' = c) := fun h => hj'c h.2
          rw [if_neg hcond]
          by_cases hj' : j' < c
          · have hj'2 : j' < c + 1 := by omega
            simp [hR, hj', hj'2]
          · have hj'2 : ¬ j' < c + 1 := by omega
            simp [hR, hj', hj'2]
      · have hcond : ¬ (i' = i ∧ j' = c) := fun h => hi' h.1
        rw [if_neg hcond]
        simp [hR, hi']

theorem fwRound_mid (N k : ℕ) (hk : k < N) (D : ℕ → ℕ → DistV) :
    ∀ r, r ≤ N → (List.range r).foldl
        (fun g i => (List.range N).foldl (fun h j => fwCell k h i j) g) D
      = fun i j => if i < r ∧ j < N then fwRoundSpec D k i j else D i j := by
  intro r
  induction r with
  | zero =>
      intro _
      funext i j
      simp
  | succ r ih =>
      intro hr
      rw [List.range_succ, List.foldl_append, ih (by omega)]
      set M : ℕ → ℕ → DistV :=
        fun i j => if i < r ∧ j < N then fwRoundSpec D k i j else D i j
        with hM
      simp only [List.foldl_cons, List.foldl_nil]
      rw [rowFold_spec N k r M N]
      funext a b
      by_cases ha : a = r
      · subst ha
        by_cases hb : b < N
        · rw [if_pos ⟨rfl, hb⟩, if_pos ⟨Nat.lt_succ_self a, hb⟩]
          have hMab : M a b = D a b := by
            simp [hM]
          have hMak : M a k = D a k := by
            simp [hM]
          have hMkk : M k k = if k < a then dkkS D k else D k k := by
            by_cases hka : k < a
            · simp [hM, hka, hk, fwRoundSpec_kk]
            · simp [hM, hka]
          have hMkb : M k b = if k < a then rowKS D k b else D k b := by
            by_cases hka : k < a
            · simp [hM, hka, hb, fwRoundSpec_kj]
            · simp [hM, hka]
          unfold rowVal fwRoundSpec colKS
          rw [hMab, hMak, hMkk, hMkb]
        · have h1 : ¬ (a = a ∧ b < N) := fun h => hb h.2
          have h2 : ¬ (a < a + 1 ∧ b < N) := fun h => hb h.2
          rw [if_neg h1, if_neg h2]
          simp [hM, hb]
      · have h1 : ¬ (a = r ∧ b < N) := fun h => ha h.1
        rw [if_neg h1]
        by_cases hab : a < r ∧ b < N
        · have h2 : a < r + 1 ∧ b < N := ⟨by omega, hab.2⟩
          simp [hM, hab, h2]
        · have h2 : ¬ (a < r + 1 ∧ b < N) := by
            intro h
            exact hab ⟨by omega, h.2⟩
          simp [hM, hab, h2]

theorem fwRound_eq_spec {N k : ℕ} (hk : k < N) (D : ℕ → ℕ → DistV)
    {i j : ℕ} (hi : i < N) (hj : j < N) :
    fwRound N k D i j = fwRoundSpec D k i j := by
  unfold fwRound
  rw [fwRound_mid N k hk D N (le_refl N)]
  simp [hi, hj]

/-- The round leaves everything outside the `N×N` block unchanged. -/
theorem fwRound_out {N k : ℕ} (hk : k < N) (D : ℕ → ℕ → DistV)
    {i j : ℕ} (h : N ≤ i ∨ N ≤ j) : fwRound N k D i j = D i j := by
  unfold fwRound
  rw [fwRound_mid N k hk D N (le_refl N)]
  rcases h with h | h
  · have : ¬ (i < N ∧ j < N) := by omega
    simp [this]
  · have : ¬ (i < N ∧ j < N) := by omega
    simp [this]

theorem fwRound_le {N k : ℕ} (hk : k < N) (D : ℕ → ℕ → DistV) (i j : ℕ) :
    fwRound N k D i j ≤ D i j := by
  by_cases hij : i < N ∧ j < N
  · rw [fwRound_eq_spec hk D hij.1 hij.2]
    exact min_le_left _ _
  · rw [fwRound_out hk D (by omega)]

theorem fwRound_relax {N k : ℕ} (hk : k < N) (D : ℕ → ℕ → DistV)
    {i j : ℕ} (hi : i < N) (hj : j < N) :
    fwRound N k D i j ≤ D i k + D k j := by
  rw [fwRound_eq_spec hk D hi hj]
  refine le_trans (min_le_right _ _) (add_le_add ?_ ?_)
  · by_cases hkj : k < j
    · rw [if_pos hkj]
      exact min_le_left _ _
    · rw [if_neg hkj]
  · by_cases hki : k < i
    · rw [if_pos hki]
      exact min_le_left _ _
    · rw [if_neg hki]

/-! ## Floyd-Warshall: symmetry of the round's closed form -/

theorem fwRoundSpec_symm {N : ℕ} {D : ℕ → ℕ → DistV}
    (hD : ∀ i j, i < N → j < N → D i j = D j i) {k i j : ℕ}
    (hk : k < N) (hi : i < N) (hj : j < N) :
    fwRoundSpec D k i j = fwRoundSpec D k j i := by
  unfold fwRoundSpec colKS rowKS
  rw [hD i j hi hj, hD i k hi hk, hD k j hk hj]
  rw [add_comm (D k i) (if k < i then dkkS D k else D k k)]
  rw [add_comm (if k < j then dkkS D k else D k k) (D j k)]
  congr 1
  exact add_comm _ _

theorem fwRound_symm {N k : ℕ} (hk : k < N) {D : ℕ → ℕ → DistV}
    (hD : ∀ i j, i < N → j < N → D i j = D j i) :
    ∀ i j, i < N → j < N → fwRound N k D i j = fwRound N k D j i := by
  intro i j hi hj
  rw [fwRound_eq_spec hk D hi hj, fwRound_eq_spec hk D hj hi]
  exact fwRoundSpec_symm hD hk hi hj

/-! ## Floyd-Warshall: initialization and diagonal -/

theorem fwInit_aux_nomem :
    ∀ (l : List Edge) (f : ℕ → ℕ → DistV) (u v : ℕ),
      (∀ w, (u, v, w) ∉ l) →
      l.foldl (fun f e => upd2 f e.1 e.2.1 (e.2.2 : DistV)) f u v = f u v := by
  intro l
  induction l with
  | nil => intro f u v _; rfl
  | cons e t ih =>
      intro f u v h
      rw [List.foldl_cons]
      rw [ih _ u v fun w hw => h w (List.mem_cons_of_mem e hw)]
      unfold upd2
      rw [if_neg]
      rintro ⟨rfl, rfl⟩
      exact h e.2.2 (by
        have : e = (e.1, e.2.1, e.2.2) := rfl
        rw [← this]
        exact List.mem_cons_self e t)

theorem fwInit_aux_mem :
    ∀ (l : List Edge) (f : ℕ → ℕ → DistV) (u v : ℕ) (w : ℤ),
      pairsNodup l → (u, v, w) ∈ l →
      l.foldl (fun f e => upd2 f e.1 e.2.1 (e.2.2 : DistV)) f u v = (w : DistV) := by
  intro l
  induction l with
  | nil => intro f u v w _ h; cases h
  | cons e t ih =>
      intro f u v w hND he
      have hND' : pairsNodup t ∧ (e.1, e.2.1) ∉ t.map fun e => (e.1, e.2.1) := by
        unfold pairsNodup at hND ⊢
        rw [List.map_cons, List.nodup_cons] at hND
        exact ⟨hND.2, hND.1⟩
      rcases List.mem_cons.1 he with heq | he
      · have h1 : e.1 = u := by rw [← heq]
        have h2 : e.2.1 = v := by rw [← heq]
        have h3 : e.2.2 = w := by rw [← heq]
        rw [List.foldl_cons]
        rw [fwInit_aux_nomem t _ u v]
        · unfold upd2
          rw [if_pos ⟨h1.symm, h2.symm⟩, h3]
        · intro w' hw'
          apply hND'.2
          rw [h1, h2]
          exact List.mem_map_of_mem (fun e : Edge => (e.1, e.2.1)) hw'
      · rw [List.foldl_cons]
        exact ih _ u v w hND'.1 he

theorem fwInit_mem {E : List Edge} (hND : pairsNodup E) {u v : ℕ} {w : ℤ}
    (he : (u, v, w) ∈ E) : fwInit E u v = (w : DistV) :=
  fwInit_aux_mem E _ u v w hND he

theorem fwInit_not_mem {E : List Edge} {u v : ℕ}
    (h : ∀ w, (u, v, w) ∉ E) : fwInit E u v = ⊤ :=
  fwInit_aux_nomem E _ u v h

theorem fwDiag_aux :
    ∀ (l : List ℕ) (f : ℕ → ℕ → DistV) (i j : ℕ),
      l.foldl (fun g i => upd2 g i i 0) f i j
        = if i = j ∧ i ∈ l then 0 else f i j := by
  intro l
  induction l with
  | nil =>
      intro f i j
      simp
  | cons a t ih =>
      intro f i j
      rw [List.foldl_cons, ih]
      by_cases h1 : i = j ∧ i ∈ t
      · rw [if_pos h1, if_pos ⟨h1.1, List.mem_cons_of_mem a h1.2⟩]
      · rw [if_neg h1]
        unfold upd2
        by_cases h2 : i = a ∧ j = a
        · have : i = j ∧ i ∈ a :: t := by
            refine ⟨h2.1.trans h2.2.symm, ?_⟩
            rw [h2.1]
            exact List.mem_cons_self a t
          rw [if_pos h2, if_pos this]
        · rw [if_neg h2]
          rw [if_neg]
          rintro ⟨rfl, hmem⟩
          rcases List.mem_cons.1 hmem with rfl | hmem
          · exact h2 ⟨rfl, rfl⟩
          · exact h1 ⟨rfl, hmem⟩

theorem fwDiag_eq (N : ℕ) (f : ℕ → ℕ → DistV) (i j : ℕ) :
    fwDiag N f i j = if i = j ∧ i < N then 0 else f i j := by
  unfold fwDiag
  rw [fwDiag_aux]
  simp [List.mem_range]

/-! ## Floyd-Warshall: soundness (finite entries come from walks) -/

theorem foldl_preserve {α β : Type} {P : α → Prop} {f : α → β → α}
    {l : List β} (h : ∀ a b, b ∈ l → P a → P (f a b)) :
    ∀ a, P a → P (l.foldl f a) := by
  induction l with
  | nil => intro a ha; exact ha
  | cons b t ih =>
      intro a ha
      rw [List.foldl_cons]
      exact ih (fun a' b' hb' => h a' b' (List.mem_cons_of_mem b hb'))
        (f a b) (h a b (List.mem_cons_self b t) ha)

theorem fwSound_top (E : List Edge) : FWSound E (fun _ _ => ⊤) := by
  intro i j
  exact Or.inl rfl

theorem fwSound_init (E : List Edge) : FWSound E (fwInit E) := by
  unfold fwInit
  refine foldl_preserve ?_ _ (fwSound_top E)
  intro f e he hf i j
  unfold upd2
  by_cases hij : i = e.1 ∧ j = e.2.1
  · rw [if_pos hij]
    refine Or.inr ⟨[e], ⟨hij.1.symm, he, hij.2.symm⟩, ?_⟩
    rw [wwt_cons, wwt_nil]
    simp
  · rw [if_neg hij]
    exact hf i j

theorem fwSound_diag (N : ℕ) (E : List Edge) {f : ℕ → ℕ → DistV}
    (hf : FWSound E f) : FWSound E (fwDiag N f) := by
  unfold fwDiag
  refine foldl_preserve ?_ _ hf
  intro g a _ hg i j
  unfold upd2
  by_cases hij : i = a ∧ j = a
  · rw [if_pos hij]
    refine Or.inr ⟨[], ?_, ?_⟩
    · show i = j
      rw [hij.1, hij.2]
    · rw [wwt_nil]
      simp
  · rw [if_neg hij]
    exact hg i j

theorem fwSound_cell (E : List Edge) (k : ℕ) {f : ℕ → ℕ → DistV}
    (hf : FWSound E f) (a b : ℕ) : FWSound E (fwCell k f a b) := by
  intro i j
  unfold fwCell upd2
  by_cases hij : i = a ∧ j = b
  · rcases hij with ⟨rfl, rfl⟩
    rw [if_pos ⟨rfl, rfl⟩]
    rcases le_total (f i j) (f i k + f k j) with hle | hle
    · rw [min_eq_left hle]
      exact hf i j
    · rw [min_eq_right hle]
      by_cases htop : f i k + f k j = ⊤
      · exact Or.inl htop
      · have h1 : f i k ≠ ⊤ := by
          intro h
          rw [h, top_add] at htop
          exact htop rfl
        have h2 : f k j ≠ ⊤ := by
          intro h
          rw [h, add_top] at htop
          exact htop rfl
        rcases hf i k with h | ⟨p1, hp1, hw1⟩
        · exact absurd h h1
        rcases hf k j with h | ⟨p2, hp2, hw2⟩
        · exact absurd h h2
        refine Or.inr ⟨p1 ++ p2, chainOk_append.2 ⟨k, hp1, hp2⟩, ?_⟩
        rw [wwt_append]
        push_cast
        exact add_le_add hw1 hw2
  · rw [if_neg hij]
    exact hf i j

theorem fwSound_round (E : List Edge) (N k : ℕ) {f : ℕ → ℕ → DistV}
    (hf : FWSound E f) : FWSound E (fwRound N k f) := by
  unfold fwRound
  refine foldl_preserve ?_ _ hf
  intro g i _ hg
  refine foldl_preserve ?_ _ hg
  intro h j _ hh
  exact fwSound_cell E k hh i j

theorem fwSound_after (N : ℕ) (E : List Edge) (t : ℕ) :
    FWSound E (fwAfter N E t) := by
  unfold fwAfter
  refine foldl_preserve ?_ _ (fwSound_diag N E (fwSound_init E))
  intro f k _ hf
  exact fwSound_round E N k hf

theorem floyd_warshall_eq_after (N : ℕ) (E : List Edge) :
    floyd_warshall N E = fwAfter N E N := rfl

theorem fw_sound (N : ℕ) (E : List Edge) : FWSound E (floyd_warshall N E) := by
  rw [floyd_warshall_eq_after]
  exact fwSound_after N E N

/-! ## Floyd-Warshall: upper bound along simple paths -/

theorem wsupport_append (u : ℕ) (b c : List Edge) :
    wsupport u (b ++ c) = wsupport u b ++ c.map fun e => e.2.1 := by
  simp [wsupport]

theorem length_le_two_of_mem_pair {l : List ℕ} {a b : ℕ}
    (h : ∀ x ∈ l, x = a ∨ x = b) (hnd : l.Nodup) : l.length ≤ 2 := by
  have hsub : l.toFinset ⊆ ({a, b} : Finset ℕ) := by
    intro x hx
    rcases h x (List.mem_toFinset.1 hx) with rfl | rfl
    · exact Finset.mem_insert_self _ _
    · exact Finset.mem_insert_of_mem (Finset.mem_singleton_self _)
  have hcard := Finset.card_le_card hsub
  rw [List.toFinset_card_of_nodup hnd] at hcard
  calc l.length ≤ ({a, b} : Finset ℕ).card := hcard
    _ ≤ 2 := Finset.card_insert_le _ _ |>.trans (by simp)

theorem fwAfter_succ (N : ℕ) (E : List Edge) (t : ℕ) :
    fwAfter N E (t + 1) = fwRound N t (fwAfter N E t) := by
  unfold fwAfter
  rw [List.range_succ, List.foldl_append]
  simp

theorem fwAfter_le_path {N : ℕ} {E : List Edge} (hE : edgesInRange N E)
    (hND : pairsNodup E) :
    ∀ (t : ℕ), t ≤ N → ∀ (i j : ℕ) (p : List Edge), i < N → j < N →
      chainOk E i p j → (wsupport i p).Nodup →
      (∀ x ∈ wsupport i p, x = i ∨ x = j ∨ x < t) →
      fwAfter N E t i j ≤ ((wwt p : ℤ) : DistV) := by
  intro t
  induction t with
  | zero =>
      intro _ i j p hi hj hp hnd hmem
      have hlen : p.length ≤ 1 := by
        have h2 := length_le_two_of_mem_pair
          (fun x hx => by
            rcases hmem x hx with h | h | h
            · exact Or.inl h
            · exact Or.inr h
            · omega) hnd
        rw [support_length] at h2
        omega
      show fwAfter N E 0 i j ≤ _
      have hzero : fwAfter N E 0 = fwDiag N (fwInit E) := rfl
      rw [hzero]
      match p, hlen with
      | [], _ =>
          have hij : i = j := hp
          subst hij
          rw [fwDiag_eq]
          rw [if_pos ⟨rfl, hi⟩]
          rw [wwt_nil]
          simp
      | [e], _ =>
          rcases hp with ⟨h1, h2, h3⟩
          have hij : i ≠ j := by
            have : (wsupport i [e]).Nodup := hnd
            have he : wsupport i [e] = [i, e.2.1] := by
              simp [wsupport]
            rw [he, h3] at this
            rcases List.nodup_cons.1 this with ⟨hni, -⟩
            intro hij
            exact hni (hij ▸ List.mem_singleton_self j)
          rw [fwDiag_eq]
          rw [if_neg fun hc => hij hc.1]
          have hee : e = (i, j, e.2.2) := by
            have : e = (e.1, e.2.1, e.2.2) := rfl
            rw [this, h1, h3]
          rw [hee] at h2
          rw [fwInit_mem hND h2]
          rw [wwt_cons, wwt_nil]
          simp
  | succ t ih =>
      intro ht i j p hi hj hp hnd hmem
      rw [fwAfter_succ]
      have htN : t < N := by omega
      by_cases hsplit : t ∈ wsupport i p ∧ t ≠ i ∧ t ≠ j
      · rcases hsplit with ⟨htmem, hti, htj⟩
        rcases mem_support_split hp htmem with ⟨b, c, rfl, hb, hc⟩
        have happ := wsupport_append i b c
        rw [happ] at hnd hmem
        have hbN : (wsupport i b).Nodup := hnd.of_append_left
        have hcmapN : (c.map fun e => e.2.1).Nodup := hnd.of_append_right
        have hdisj := List.disjoint_of_nodup_append hnd
        have ht_in_b : t ∈ wsupport i b := end_mem_support hb
        have ht_not_c : t ∉ c.map fun e => e.2.1 := fun h => hdisj ht_in_b h
        have hi_in_b : i ∈ wsupport i b := by
          unfold wsupport
          exact List.mem_cons_self _ _
        have hi_not_c : i ∉ c.map fun e => e.2.1 := fun h => hdisj hi_in_b h
        have hcN : (wsupport t c).Nodup := by
          unfold wsupport
          exact List.nodup_cons.2 ⟨ht_not_c, hcmapN⟩
        have hj_in_c : j ∈ c.map fun e => e.2.1 := by
          have := end_mem_support hc
          unfold wsupport at this
          rcases List.mem_cons.1 this with rfl | h
          · exact absurd rfl htj
          · exact h
        have hj_not_b : j ∉ wsupport i b := fun h => hdisj h hj_in_c
        have hbmem : ∀ x ∈ wsupport i b, x = i ∨ x = t ∨ x < t := by
          intro x hx
          rcases hmem x (List.mem_append_left _ hx) with h | h | h
          · exact Or.inl h
          · exact absurd (h ▸ hx) hj_not_b
          · by_cases hxt : x = t
            · exact Or.inr (Or.inl hxt)
            · exact Or.inr (Or.inr (by omega))
        have hcmem : ∀ x ∈ wsupport t c, x = t ∨ x = j ∨ x < t := by
          intro x hx
          unfold wsupport at hx
          rcases List.mem_cons.1 hx with rfl | hx
          · exact Or.inl rfl
          · rcases hmem x (List.mem_append_right _ hx) with h | h | h
            · exact absurd (h ▸ hx) hi_not_c
            · exact Or.inr (Or.inl h)
            · have hxt : x ≠ t := fun hh => ht_not_c (hh ▸ hx)
              exact Or.inr (Or.inr (by omega))
        have h1 := ih (by omega) i t b hi htN hb hbN hbmem
        have h2 := ih (by omega) t j c htN hj hc hcN hcmem
        calc fwRound N t (fwAfter N E t) i j
            ≤ fwAfter N E t i t + fwAfter N E t t j :=
              fwRound_relax htN _ hi hj
          _ ≤ ((wwt b : ℤ) : DistV) + ((wwt c : ℤ) : DistV) := add_le_add h1 h2
          _ = ((wwt (b ++ c) : ℤ) : DistV) := by
              rw [wwt_append]
              push_cast
              rfl
      · have hmem' : ∀ x ∈ wsupport i p, x = i ∨ x = j ∨ x < t := by
          intro x hx
          rcases hmem x hx with h | h | h
          · exact Or.inl h
          · exact Or.inr (Or.inl h)
          · by_cases hxt : x = t
            · subst hxt
              push_neg at hsplit
              by_cases hti : x = i
              · exact Or.inl hti
              · exact Or.inr (Or.inl (hsplit hx hti))
            · exact Or.inr (Or.inr (by omega))
        exact le_trans (fwRound_le htN _ i j) (ih (by omega) i j p hi hj hp hnd hmem')

/-! ## Floyd-Warshall and Bellman-Ford: shortest-distance consequences -/

theorem fw_le_walk {N : ℕ} {E : List Edge} (hE : edgesInRange N E)
    (hND : pairsNodup E) (hNC : NoNegCycle E) {i j : ℕ} (hi : i < N)
    (hj : j < N) {p : List Edge} (hp : chainOk E i p j) :
    floyd_warshall N E i j ≤ ((wwt p : ℤ) : DistV) := by
  rcases walk_deloop hNC p.length p i j (le_refl _) hp with ⟨q, hq, hw, hqnd⟩
  have hqmem : ∀ x ∈ wsupport i q, x = i ∨ x = j ∨ x < N := fun x hx =>
    Or.inr (Or.inr (support_lt hq hE hi x hx))
  have h := fwAfter_le_path hE hND N (le_refl N) i j q hi hj hq hqnd hqmem
  rw [floyd_warshall_eq_after]
  exact le_trans h (by exact_mod_cast hw)

theorem bf_le_walk {N : ℕ} {E : List Edge} (hE : edgesInRange N E)
    (hNC : NoNegCycle E) (hs : s < N) {v : ℕ} {p : List Edge}
    (hp : chainOk E s p v) :
    bfRelaxed N E s v ≤ ((wwt p : ℤ) : DistV) := by
  rcases walk_deloop hNC p.length p s v (le_refl _) hp with ⟨q, hq, hw, hqnd⟩
  have hlen : q.length < N := by
    have h1 := length_le_of_nodup_lt (support_lt hq hE hs) hqnd
    rw [support_length] at h1
    omega
  have h := bf_upper E s (N - 1) q v hq (by omega)
  exact le_trans h (by exact_mod_cast hw)

/-- With no negative cycle, the scan of `bellman_ford` finds nothing to
relax, so the call returns its distance map. -/
theorem bf_ok_of_noNegCycle {N : ℕ} {E : List Edge} {s : ℕ}
    (hE : edgesInRange N E) (hNC : NoNegCycle E) :
    bellman_ford N E s = .ok (bfRelaxed N E s) := by
  apply bellman_ford_stable_ok
  by_contra hst
  have herr := bellman_ford_error_iff.2 hst
  rcases (bf_negcycle_iff hE).1 herr with ⟨x, p, q, hp, hq, hneg⟩
  exact absurd (hNC x q hq) (by omega)

/-- With no negative cycle, the two engines compute the same distance for
every pair of in-range nodes — both are the infimum of walk weights. -/
theorem fw_bf_agree {N : ℕ} {E : List Edge} {s v : ℕ}
    (hE : edgesInRange N E) (hND : pairsNodup E) (hNC : NoNegCycle E)
    (hs : s < N) (hv : v < N) :
    floyd_warshall N E s v = bfRelaxed N E s v := by
  refine le_antisymm ?_ ?_
  · rcases bfSound_relaxed N E s v with htop | ⟨p, hp, hw⟩
    · rw [htop]
      exact le_top
    · exact le_trans (fw_le_walk hE hND hNC hs hv hp) hw
  · rcases fw_sound N E s v with htop | ⟨p, hp, hw⟩
    · rw [htop]
      exact le_top
    · exact le_trans (bf_le_walk hE hNC hs hp) hw

/-- Triangle inequality for the final matrix, given no negative cycle. -/
theorem fw_triangle {N : ℕ} {E : List Edge} (hE : edgesInRange N E)
    (hND : pairsNodup E) (hNC : NoNegCycle E) {i j k : ℕ}
    (hi : i < N) (hj : j < N) (hk : k < N) :
    floyd_warshall N E i j ≤ floyd_warshall N E i k + floyd_warshall N E k j := by
  rcases fw_sound N E i k with htop | ⟨p1, hp1, hw1⟩
  · rw [htop, top_add]
    exact le_top
  rcases fw_sound N E k j with htop | ⟨p2, hp2, hw2⟩
  · rw [htop, add_top]
    exact le_top
  calc floyd_warshall N E i j
      ≤ ((wwt (p1 ++ p2) : ℤ) : DistV) :=
        fw_le_walk hE hND hNC hi hj (chainOk_append.2 ⟨k, hp1, hp2⟩)
    _ = ((wwt p1 : ℤ) : DistV) + ((wwt p2 : ℤ) : DistV) := by
        rw [wwt_append]
        push_cast
        rfl
    _ ≤ floyd_warshall N E i k + floyd_warshall N E k j := add_le_add hw1 hw2

/-! ## Floyd-Warshall: symmetry for symmetric edge lists -/

theorem fwInit_symm {E : List Edge} (hND : pairsNodup E) (hsym : symClosed E)
    (u v : ℕ) : fwInit E u v = fwInit E v u := by
  by_cases h : ∃ w, ((u, v, w) : Edge) ∈ E
  · rcases h with ⟨w, hw⟩
    rw [fwInit_mem hND hw, fwInit_mem hND (hsym (u, v, w) hw)]
  · push_neg at h
    rw [fwInit_not_mem h, fwInit_not_mem fun w hw => h w (hsym (v, u, w) hw)]

theorem fwDiag_symm {N : ℕ} {f : ℕ → ℕ → DistV} (hf : ∀ u v, f u v = f v u)
    (u v : ℕ) : fwDiag N f u v = fwDiag N f v u := by
  rw [fwDiag_eq, fwDiag_eq]
  by_cases h : u = v
  · subst h
    rfl
  · have h1 : ¬ (u = v ∧ u < N) := fun hc => h hc.1
    have h2 : ¬ (v = u ∧ v < N) := fun hc => h hc.1.symm
    rw [if_neg h1, if_neg h2]
    exact hf u v

/-- The whole run preserves symmetry of the `N×N` block: for a
symmetric-closed edge list, the returned matrix is symmetric. -/
theorem fw_symm {N : ℕ} {E : List Edge} (hND : pairsNodup E)
    (hsym : symClosed E) :
    ∀ i j, i < N → j < N → floyd_warshall N E i j = floyd_warshall N E j i := by
  have key : ∀ (l : List ℕ), (∀ k ∈ l, k < N) →
      ∀ (f : ℕ → ℕ → DistV), (∀ i j, i < N → j < N → f i j = f j i) →
      ∀ i j, i < N → j < N →
        (l.foldl (fun f k => fwRound N k f) f) i j
          = (l.foldl (fun f k => fwRound N k f) f) j i := by
    intro l
    induction l with
    | nil => intro _ f hf; exact hf
    | cons a t ih =>
        intro hl f hf
        rw [List.foldl_cons]
        exact ih (fun k hk => hl k (List.mem_cons_of_mem a hk))
          _ (fwRound_symm (hl a (List.mem_cons_self a t)) hf)
  rw [floyd_warshall_eq_after]
  unfold fwAfter
  exact key (List.range N) (fun k hk => List.mem_range.1 hk) _
    (fun i j _ _ => fwDiag_symm (fwInit_symm hND hsym) i j)

/-! ## Generator: membership structure and connectivity -/

theorem mem_drop_range {n m j : ℕ} :
    j ∈ (List.range n).drop m ↔ m ≤ j ∧ j < n := by
  constructor
  · intro h
    rcases List.mem_iff_getElem.1 h with ⟨t, ht, hget⟩
    rw [List.getElem_drop, List.getElem_range] at hget
    have hlen := ht
    rw [List.length_drop, List.length_range] at hlen
    omega
  · rintro ⟨h1, h2⟩
    refine List.mem_iff_getElem.2 ⟨j - m, ?_, ?_⟩
    · rw [List.length_drop, List.length_range]
      omega
    · rw [List.getElem_drop, List.getElem_range]
      omega

theorem mem_groupPairs {n i : ℕ} {e : ℕ × ℕ} :
    e ∈ groupPairs n i ↔ ∃ j, i < j ∧ j < n ∧ e = (i, j) := by
  unfold groupPairs
  rw [List.mem_map]
  constructor
  · rintro ⟨j, hj, rfl⟩
    rcases mem_drop_range.1 hj with ⟨h1, h2⟩
    exact ⟨j, by omega, h2, rfl⟩
  · rintro ⟨j, h1, h2, rfl⟩
    exact ⟨j, mem_drop_range.2 ⟨by omega, h2⟩, rfl⟩

theorem groupPairs_length (n i : ℕ) :
    (groupPairs n i).length = n - (i + 1) := by
  unfold groupPairs
  rw [List.length_map, List.length_drop, List.length_range]

theorem mandatoryEdge_shape (n : ℕ) (o : GenOracle) (i : ℕ)
    (hi : i + 1 < n) : ∃ j, i < j ∧ j < n ∧
      (mandatoryEdge n o i = (i, j) ∨ mandatoryEdge n o i = (j, i)) := by
  have hlen : 0 < (groupPairs n i).length := by
    rw [groupPairs_length]
    omega
  have hidx : o.choice i % (groupPairs n i).length < (groupPairs n i).length :=
    Nat.mod_lt _ hlen
  have hget : (groupPairs n i).getD (o.choice i % (groupPairs n i).length)
      (i, i + 1) = (groupPairs n i)[o.choice i % (groupPairs n i).length] :=
    List.getD_eq_getElem _ _ hidx
  have hmem : (groupPairs n i)[o.choice i % (groupPairs n i).length]
      ∈ groupPairs n i := List.getElem_mem hidx
  rcases mem_groupPairs.1 hmem with ⟨j, h1, h2, hje⟩
  refine ⟨j, h1, h2, ?_⟩
  simp only [mandatoryEdge]
  rw [hget, hje]
  cases hco : o.coin i
  · exact Or.inl (by simp)
  · exact Or.inr (by simp)

theorem mandatoryEdge_mem_calls (n : ℕ) (o : GenOracle) (i : ℕ)
    (hi : i < n - 1) : mandatoryEdge n o i ∈ genCalls n o := by
  unfold genCalls
  exact List.mem_flatMap.2 ⟨i, List.mem_range.2 hi,
    List.mem_cons_self _ _⟩

theorem gen_mandatory_adj (n : ℕ) (o : GenOracle) (i : ℕ)
    (hi : i + 1 < n) :
    ∃ j, i < j ∧ j < n ∧ SkelAdj (genCalls n o) i j := by
  rcases mandatoryEdge_shape n o i hi with ⟨j, h1, h2, hor⟩
  have hmem := mandatoryEdge_mem_calls n o i (by omega)
  refine ⟨j, h1, h2, ?_⟩
  rcases hor with h | h
  · exact Or.inl (h ▸ hmem)
  · exact Or.inr (h ▸ hmem)

theorem skelAdj_symm {L : List (ℕ × ℕ)} : Symmetric (SkelAdj L) := by
  intro a b h
  rcases h with h | h
  · exact Or.inr h
  · exact Or.inl h

theorem gen_conn_to_top (n : ℕ) (o : GenOracle) :
    ∀ (d v : ℕ), v < n → n - 1 - v ≤ d → SkelConn (genCalls n o) v (n - 1) := by
  intro d
  induction d with
  | zero =>
      intro v hv hd
      have : v = n - 1 := by omega
      subst this
      exact Relation.ReflTransGen.refl
  | succ d ih =>
      intro v hv hd
      by_cases hv1 : v = n - 1
      · subst hv1
        exact Relation.ReflTransGen.refl
      · have hvn : v + 1 < n := by omega
        obtain ⟨j, hij, hjn, hadj⟩ := gen_mandatory_adj n o v hvn
        exact Relation.ReflTransGen.head hadj (ih j hjn (by omega))

/-- Connectivity of the undirected skeleton: every two nodes of the
generated graph are joined, for every possible draw of the randomness. -/
theorem gen_connected (n : ℕ) (o : GenOracle) (hn : 1 ≤ n) :
    ∀ u v, u < n → v < n → SkelConn (genCalls n o) u v := by
  intro u v hu hv
  have h1 := gen_conn_to_top n o (n - 1 - u) u hu (le_refl _)
  have h2 := gen_conn_to_top n o (n - 1 - v) v hv (le_refl _)
  have h2' : SkelConn (genCalls n o) (n - 1) v :=
    Relation.ReflTransGen.symmetric skelAdj_symm h2
  exact Relation.ReflTransGen.trans h1 h2'

/-! ## Generator: orientation of the completeness-accepted pairs -/

theorem keptEdges_ascending (n : ℕ) (o : GenOracle) (i : ℕ) :
    ∀ e ∈ keptEdges n o i, e.1 = i ∧ e.1 < e.2 ∧ e.2 < n := by
  intro e he
  have he' : e ∈ groupPairs n i := List.mem_of_mem_filter he
  rcases mem_groupPairs.1 he' with ⟨j, h1, h2, rfl⟩
  exact ⟨rfl, h1, h2⟩

/-! ## Checked Floyd-Warshall: every access is in bounds -/

theorem foldlM_option {α β : Type} (P : α → Prop) (f : α → β → Option α) :
    ∀ (l : List β), (∀ a b, b ∈ l → P a → ∃ a', f a b = some a' ∧ P a') →
      ∀ a, P a → ∃ a', l.foldlM f a = some a' ∧ P a' := by
  intro l
  induction l with
  | nil =>
      intro _ a ha
      exact ⟨a, rfl, ha⟩
  | cons b t ih =>
      intro h a ha
      rcases h a b (List.mem_cons_self b t) ha with ⟨a', hfa, ha'⟩
      rcases ih (fun a₀ b₀ hb₀ => h a₀ b₀ (List.mem_cons_of_mem b hb₀)) a' ha'
        with ⟨a'', ht, ha''⟩
      refine ⟨a'', ?_, ha''⟩
      rw [List.foldlM_cons, hfa]
      exact ht

theorem writeChk_ok {N : ℕ} {m : List (List DistV)} (hm : MatDims N m)
    {i j : ℕ} (hi : i < N) (hj : j < N) (x : DistV) :
    ∃ m', writeChk m i j x = some m' ∧ MatDims N m' := by
  rcases hm with ⟨hlen, hrows⟩
  have hi' : i < m.length := by omega
  have hrowmem : m[i] ∈ m := List.getElem_mem hi'
  have hrowlen : (m[i]).length = N := hrows _ hrowmem
  refine ⟨m.set i ((m[i]).set j x), ?_, ?_, ?_⟩
  · unfold writeChk
    have hjr : j < (m[i]).length := by omega
    simp [List.getElem?_eq_getElem hi', hjr]
  · rw [List.length_set]
    exact hlen
  · intro r hr
    rcases List.mem_or_eq_of_mem_set hr with hr | rfl
    · exact hrows r hr
    · rw [List.length_set]
      exact hrowlen

theorem readChk_ok {N : ℕ} {m : List (List DistV)} (hm : MatDims N m)
    {i j : ℕ} (hi : i < N) (hj : j < N) :
    ∃ x, readChk m i j = some x := by
  rcases hm with ⟨hlen, hrows⟩
  have hi' : i < m.length := by omega
  have hrowlen : (m[i]).length = N := hrows _ (List.getElem_mem hi')
  have hj' : j < (m[i]).length := by omega
  refine ⟨m[i][j], ?_⟩
  unfold readChk
  simp [List.getElem?_eq_getElem hi', List.getElem?_eq_getElem hj']

theorem floyd_warshallChk_dims {N : ℕ} {E : List Edge}
    (hE : edgesInRange N E) :
    ∃ M, floyd_warshallChk N E = some M ∧ MatDims N M := by
  have hm0 : MatDims N (List.replicate N (List.replicate N (⊤ : DistV))) := by
    constructor
    · exact List.length_replicate _ _
    · intro r hr
      rw [List.eq_of_mem_replicate hr]
      exact List.length_replicate _ _
  have h1 := foldlM_option (MatDims N)
    (fun m e => writeChk m e.1 e.2.1 ((e.2.2 : ℤ) : DistV)) E
    (fun m e he hm => writeChk_ok hm (hE e he).1 (hE e he).2 _)
    _ hm0
  rcases h1 with ⟨m1, hm1, hd1⟩
  have h2 := foldlM_option (MatDims N) (fun m i => writeChk m i i 0)
    (List.range N)
    (fun m i hi hm =>
      writeChk_ok hm (List.mem_range.1 hi) (List.mem_range.1 hi) _)
    _ hd1
  rcases h2 with ⟨m2, hm2, hd2⟩
  have hstep : ∀ (k : ℕ), k ∈ List.range N → ∀ (m : List (List DistV)),
      MatDims N m → ∃ m', ((List.range N).foldlM (fun m i =>
        (List.range N).foldlM (fun m j => do
          let a ← readChk m i j
          let b ← readChk m i k
          let c ← readChk m k j
          writeChk m i j (min a (b + c))) m) m) = some m' ∧ MatDims N m' := by
    intro k hk m hm
    have hkN := List.mem_range.1 hk
    refine foldlM_option (MatDims N) _ (List.range N) ?_ m hm
    intro m' i hi hm'
    have hiN := List.mem_range.1 hi
    refine foldlM_option (MatDims N) _ (List.range N) ?_ m' hm'
    intro m'' j hj hm''
    have hjN := List.mem_range.1 hj
    rcases readChk_ok hm'' hiN hjN with ⟨a, ha⟩
    rcases readChk_ok hm'' hiN hkN with ⟨b, hb⟩
    rcases readChk_ok hm'' hkN hjN with ⟨c, hc⟩
    rcases writeChk_ok hm'' hiN hjN (min a (b + c)) with ⟨mw, hw, hdw⟩
    refine ⟨mw, ?_, hdw⟩
    simp [ha, hb, hc, hw]
  have h3 := foldlM_option (MatDims N) _ (List.range N)
    (fun m k hk hm => hstep k hk m hm) m2 hd2
  rcases h3 with ⟨M, hM, hdM⟩
  refine ⟨M, ?_, hdM⟩
  unfold floyd_warshallChk
  simp only [hm1, hm2, Option.bind_eq_bind, Option.some_bind]
  exact hM

/-! ## Helper: graphs with nonnegative weights have no negative cycle -/

theorem wwt_nonneg {p : List Edge} (h : ∀ e ∈ p, 0 ≤ e.2.2) : 0 ≤ wwt p := by
  induction p with
  | nil => simp [wwt_nil]
  | cons e t ih =>
      rw [wwt_cons]
      have h1 := h e (List.mem_cons_self e t)
      have h2 := ih fun f hf => h f (List.mem_cons_of_mem e hf)
      omega

theorem noNegCycle_of_nonneg {E : List Edge} (h : ∀ e ∈ E, 0 ≤ e.2.2) :
    NoNegCycle E := fun _ p hp =>
  wwt_nonneg fun e he => h e (chainOk_sub hp e he)

/-! ## The engines do not mutate the graph -/

theorem bellman_fordSt_snd (g : PyGraph) (s : ℕ) :
    (bellman_fordSt g s).2 = g := by
  unfold bellman_fordSt nodesOp edgesOp
  simp only []
  have hfold : (List.foldl (fun (dg : (ℕ → DistV) × PyGraph) (_ : ℕ) =>
      (List.foldl relaxStep dg.1 dg.2.edgesL, dg.2))
      ((fun v => if v = s then 0 else ⊤), g)
      (List.range (g.nodesL.length - 1))).2 = g :=
    @foldl_preserve ((ℕ → DistV) × PyGraph) ℕ (fun dg => dg.2 = g)
      (fun dg _ => (List.foldl relaxStep dg.1 dg.2.edgesL, dg.2))
      (List.range (g.nodesL.length - 1))
      (fun dg b _ h => h)
      ((fun v => if v = s then 0 else ⊤), g) rfl
  split
  · exact hfold
  · exact hfold

theorem floyd_warshallSt_snd (g : PyGraph) : (floyd_warshallSt g).2 = g := rfl

/-! ## The claims -/

/-- Claim C1, counterexample: `floyd_warshall` initializes only the cell
`(u, v)` for each yielded triple (line 55 sets `distances[u][v]` only),
so for the undirected graph with the single stored edge `(0, 1, 5)` the
cell `(1, 0)` stays `+∞` and the returned matrix is not symmetric. -/
theorem c1_counterexample :
    floyd_warshall 2 [(0, 1, 5)] 0 1 = ((5 : ℤ) : DistV) ∧
    floyd_warshall 2 [(0, 1, 5)] 1 0 = ⊤ ∧
    floyd_warshall 2 [(0, 1, 5)] 0 1 ≠ floyd_warshall 2 [(0, 1, 5)] 1 0 := by
  decide

/-- Claim C1, amended: `floyd_warshall` initializes only cell `(u, v)`
per yielded edge triple, so the matrix of an undirected graph whose edges
are yielded once need not be symmetric; the returned matrix is symmetric
whenever the yielded triple list itself contains both orientations of
every edge (and respects the one-weight-per-ordered-pair invariant). -/
theorem c1_amended (N : ℕ) (E : List Edge) (hND : pairsNodup E)
    (hsym : symClosed E) (i j : ℕ) (hi : i < N) (hj : j < N) :
    floyd_warshall N E i j = floyd_warshall N E j i :=
  fw_symm hND hsym i j hi hj

theorem c1_witness :
    floyd_warshall 2 [(0, 1, 5), (1, 0, 5)] 0 1
      = floyd_warshall 2 [(0, 1, 5), (1, 0, 5)] 1 0 :=
  c1_amended 2 [(0, 1, 5), (1, 0, 5)] (by decide) (by decide) 0 1
    (by decide) (by decide)

/-- Claim C2: for every graph over `{0, …, N-1}` with no negative cycle
and every source node `s` of the graph, `bellman_ford` returns its
distance map, and for every node `v` reachable from `s` the two engines
agree: `floyd_warshall(graph)[s][v] = bellman_ford(graph, s)[v]`. -/
theorem c2_engines_agree (N : ℕ) (E : List Edge) (s v : ℕ)
    (hE : edgesInRange N E) (hND : pairsNodup E) (hNC : NoNegCycle E)
    (hs : s < N) (hv : v < N) (hr : Reachable E s v) :
    bellman_ford N E s = .ok (bfRelaxed N E s) ∧
      floyd_warshall N E s v = bfRelaxed N E s v :=
  ⟨bf_ok_of_noNegCycle hE hNC, fw_bf_agree hE hND hNC hs hv⟩

theorem c2_witness :
    bellman_ford 2 [(0, 1, 4)] 0 = .ok (bfRelaxed 2 [(0, 1, 4)] 0) ∧
      floyd_warshall 2 [(0, 1, 4)] 0 1 = bfRelaxed 2 [(0, 1, 4)] 0 1 :=
  c2_engines_agree 2 [(0, 1, 4)] 0 1 (by decide) (by decide)
    (noNegCycle_of_nonneg (by decide)) (by decide) (by decide)
    ⟨[(0, 1, 4)], by decide⟩

/-- Claim C3, counterexample: `bellman_ford` with an absent source does
not fail.  Python's `distances[source] = 0` inserts the missing key, so
`bellman_ford` on the one-node graph with absent source `1` returns a
distance vector (source at `0`, the graph node at `+∞`), raising no
error. -/
theorem c3_counterexample :
    bellman_ford 1 [] 1 = .ok (bfInit 1) ∧ bfInit 1 1 = 0 ∧
      bfInit 1 0 = ⊤ := by
  refine ⟨rfl, by decide, by decide⟩

/-- Claim C3, amended: for a source absent from the node set
`{0, …, N-1}`, `bellman_ford` silently adds the source to its distance
dict with value `0` and returns normally; every graph node keeps `+∞`
(no edge leaves the absent source), and no `UnknownNode`-style error is
raised. -/
theorem c3_amended (N : ℕ) (E : List Edge) (s v : ℕ)
    (hE : edgesInRange N E) (hs : N ≤ s) (hv : v < N) :
    bellman_ford N E s = .ok (bfInit s) ∧ bfInit s s = 0 ∧
      bfInit s v = ⊤ := by
  refine ⟨bf_absent_source hE hs, by simp [bfInit], ?_⟩
  have hvs : v ≠ s := by omega
  simp [bfInit, hvs]

theorem c3_witness :
    bellman_ford 1 [(0, 0, 2)] 3 = .ok (bfInit 3) ∧ bfInit 3 3 = 0 ∧
      bfInit 3 0 = ⊤ :=
  c3_amended 1 [(0, 0, 2)] 3 0 (by decide) (by decide) (by decide)

/-- Claim C4: `bellman_ford` performs `|V| - 1` relaxation passes (this
is the definition of `bfRelaxed`) and then one full edge scan; it raises
the negative-cycle `ValueError` exactly when some edge still relaxes,
which happens exactly when a negative closed walk is reachable from the
source.  In particular, on the 3-node graph `0→1 (1)`, `1→2 (-3)`,
`2→0 (1)` with source `0` it raises. -/
theorem c4_negcycle_detection :
    (∀ (N : ℕ) (E : List Edge) (s : ℕ), edgesInRange N E →
      (bellman_ford N E s = .error "Graph contains a negative cycle" ↔
        ∃ x p q, chainOk E s p x ∧ chainOk E x q x ∧ wwt q < 0)) ∧
    bellman_ford 3 [(0, 1, 1), (1, 2, -3), (2, 0, 1)] 0
      = .error "Graph contains a negative cycle" := by
  constructor
  · intro N E s hE
    exact bf_negcycle_iff hE
  · simp only [bellman_ford]
    rw [if_pos (by decide)]

theorem c4_witness :
    bellman_ford 2 [(0, 1, -1), (1, 0, -1)] 0
      = .error "Graph contains a negative cycle" :=
  (c4_negcycle_detection.1 2 [(0, 1, -1), (1, 0, -1)] 0 (by decide)).2
    ⟨0, [], [(0, 1, -1), (1, 0, -1)], by decide, by decide, by decide⟩

/-- Claim C5, counterexample: the completeness loop (line 98) executes
`G.add_edge(*e)` with the pair `e` as-is — no orientation randomness is
consulted.  Under the concrete draw `oracleAllRev`, in which every
orientation coin says "reverse", the accepted pair `(0, 2)` is still
inserted as `(0, 2)`; the orientation `(2, 0)` promised possible by the
claim never appears. -/
theorem c5_counterexample :
    genCalls 3 oracleAllRev = [(1, 0), (0, 2), (2, 1)] ∧
    (0, 2) ∈ keptEdges 3 oracleAllRev 0 ∧
    (0, 2) ∈ genCalls 3 oracleAllRev ∧
    (2, 0) ∉ genCalls 3 oracleAllRev := by
  decide

/-- Claim C5, amended: every pair accepted by the per-pair completeness
check is inserted into the graph in its canonical ascending orientation
`(i, j)` with `i < j`, independent of the random draws; only the
once-per-group mandatory edge gets a random orientation. -/
theorem c5_amended (n : ℕ) (o : GenOracle) (i : ℕ) (e : ℕ × ℕ)
    (hi : i < n - 1) (he : e ∈ keptEdges n o i) :
    e ∈ genCalls n o ∧ e.1 = i ∧ e.1 < e.2 ∧ e.2 < n := by
  refine ⟨?_, keptEdges_ascending n o i e he⟩
  unfold genCalls
  exact List.mem_flatMap.2 ⟨i, List.mem_range.2 hi, List.mem_cons_of_mem _ he⟩

theorem c5_witness :
    ((0, 2) : ℕ × ℕ) ∈ genCalls 3 oracleAllRev ∧
      ((0, 2) : ℕ × ℕ).1 = 0 ∧ ((0, 2) : ℕ × ℕ).1 < ((0, 2) : ℕ × ℕ).2 ∧
      ((0, 2) : ℕ × ℕ).2 < 3 :=
  c5_amended 3 oracleAllRev 0 (0, 2) (by decide) (by decide)

/-- Claim C6: for every `n ≥ 1`, every completeness parameter and every
state of the random generator (modelled by the oracle `o`), the graph
returned by `gnp_random_connected_graph(n, c, directed=False)` has a
connected undirected skeleton: all node pairs are joined. -/
theorem c6_generator_connected (n : ℕ) (o : GenOracle) (hn : 1 ≤ n)
    (u v : ℕ) (hu : u < n) (hv : v < n) : SkelConn (genCalls n o) u v :=
  gen_connected n o hn u v hu hv

theorem c6_witness : SkelConn (genCalls 2 oracleA) 0 1 :=
  c6_generator_connected 2 oracleA (by decide) 0 1 (by decide) (by decide)

/-- Claim C7, counterexample: with a negative cycle the final matrix can
violate the triangle inequality.  For the graph `0→1 (-3)`, `1→0 (1)`
the run returns `dist[0][1] = -5`, `dist[0][0] = -2`, and
`-5 ≤ -2 + -5 = -7` is false. -/
theorem c7_counterexample :
    ¬ (floyd_warshall 2 [(0, 1, -3), (1, 0, 1)] 0 1 ≤
        floyd_warshall 2 [(0, 1, -3), (1, 0, 1)] 0 0 +
        floyd_warshall 2 [(0, 1, -3), (1, 0, 1)] 0 1) := by
  decide

/-- Claim C7, amended: for every graph over `{0, …, N-1}` with no
negative cycle, the matrix returned by `floyd_warshall` satisfies the
triangle inequality `dist[i][j] ≤ dist[i][k] + dist[k][j]` for all
`i, j, k < N`. -/
theorem c7_amended (N : ℕ) (E : List Edge) (hE : edgesInRange N E)
    (hND : pairsNodup E) (hNC : NoNegCycle E) (i j k : ℕ)
    (hi : i < N) (hj : j < N) (hk : k < N) :
    floyd_warshall N E i j ≤ floyd_warshall N E i k + floyd_warshall N E k j :=
  fw_triangle hE hND hNC hi hj hk

theorem c7_witness :
    floyd_warshall 2 [(0, 1, 4)] 0 1 ≤
      floyd_warshall 2 [(0, 1, 4)] 0 0 + floyd_warshall 2 [(0, 1, 4)] 0 1 :=
  c7_amended 2 [(0, 1, 4)] (by decide) (by decide)
    (noNegCycle_of_nonneg (by decide)) 0 1 0 (by decide) (by decide)
    (by decide)

/-- Claim C8: on a graph whose node labels are exactly `{0, …, N-1}`,
every list access of `floyd_warshall` is in bounds and the function
returns an `N×N` matrix without raising — including in the presence of
negative cycles (the checked embedding returns `some` with the right
dimensions, never `none`). -/
theorem c8_floyd_warshall_total (N : ℕ) (E : List Edge)
    (hE : edgesInRange N E) :
    ∃ M, floyd_warshallChk N E = some M ∧ M.length = N ∧
      ∀ r ∈ M, r.length = N := by
  rcases floyd_warshallChk_dims hE with ⟨M, h1, h2, h3⟩
  exact ⟨M, h1, h2, h3⟩

theorem c8_witness :
    (floyd_warshallChk 2 [(0, 1, -3), (1, 0, 1)]).isSome = true := by
  obtain ⟨M, hM, -⟩ :=
    c8_floyd_warshall_total 2 [(0, 1, -3), (1, 0, 1)] (by decide)
  rw [hM]
  rfl

/-- Claim C9: neither engine mutates its input graph: run as state
transformers over the graph (node list and edge list), both
`bellman_ford` and `floyd_warshall` return the graph exactly as it was —
they only ever call the read-only accessors `nodes()` and
`edges(data='weight')`. -/
theorem c9_engines_read_only (g : PyGraph) (s : ℕ) :
    (bellman_fordSt g s).2 = g ∧ (floyd_warshallSt g).2 = g :=
  ⟨bellman_fordSt_snd g s, floyd_warshallSt_snd g⟩

/-- Claim C10: whenever `bellman_ford` returns normally, the returned
distance of the source itself is exactly `0`: relaxation could only
drive it below `0` through a negative closed walk at the source, and any
such walk makes the final scan raise instead. -/
theorem c10_source_zero (N : ℕ) (E : List Edge) (s : ℕ) (d : ℕ → DistV)
    (h : bellman_ford N E s = .ok d) : d s = 0 :=
  bf_ok_source_eq_zero h

theorem c10_witness :
    bfRelaxed 3 [(0, 1, 4), (1, 2, 3), (0, 2, 10)] 0 0 = 0 :=
  c10_source_zero 3 [(0, 1, 4), (1, 2, 3), (0, 2, 10)] 0 _ (by
    simp only [bellman_ford]
    rw [if_neg (by decide)])
